import Mathlib

/-!
Shallow embedding of `ubpe-native`'s `src/ubpe_native/utils/ssstree.py`
(the SubSequence Search Tree, a radix trie) and
`src/ubpe_native/utils/logger.py` (the `Progress` meter and `Logger`),
together with a spec-modelled encoder/decoder (the `UBPE` orchestration
modules are not present under `src/`).

Conventions:
- Python lists/strings of symbols become `List S`; payloads become `Option V`
  (`none` is Python's `None`).
- Fallible Python code (operations that can raise `IndexError`, `NameError`,
  guard `Exception`s, `ZeroDivisionError`, `TypeError`) is embedded in
  `Except String`, the string naming the Python exception raised.
- Mutation is embedded by returning the updated structure.
-/

/-- Node of the radix tree (`SSSTreeNode` in `ssstree.py`): a key fragment,
an optional payload (`None` only on splice nodes), and a list of children. -/
inductive SSSTreeNode (S V : Type) : Type where
  | mk : List S → Option V → List (SSSTreeNode S V) → SSSTreeNode S V

/-- The `key` field of a node. -/
def SSSTreeNode.key {S V : Type} : SSSTreeNode S V → List S
  | .mk k _ _ => k

/-- The `value` field of a node. -/
def SSSTreeNode.value {S V : Type} : SSSTreeNode S V → Option V
  | .mk _ v _ => v

/-- The `children` field of a node. -/
def SSSTreeNode.children {S V : Type} : SSSTreeNode S V → List (SSSTreeNode S V)
  | .mk _ _ c => c

/-- The tree root (`SSSTree` in `ssstree.py`): just a list of child nodes. -/
structure SSSTree (S V : Type) : Type where
  children : List (SSSTreeNode S V)

/-- The `while i < max_len and self.key[i] == key[i]: i += 1` loop of
`SSSTreeNode.__add__`: length of the longest common prefix of two lists. -/
def commonLen {S : Type} [DecidableEq S] : List S → List S → Nat
  | a :: as, b :: bs => if a = b then commonLen as bs + 1 else 0
  | _, _ => 0

mutual

/-- `SSSTreeNode.__add__`: insert `(key, value)` into the subtree rooted at
this node.  Returns the updated node together with the Python return value
(`some b` from the equal-keys branch, `none` for the implicit `return None`
of the other branches, whose recursive results the source discards). -/
def nodeAdd {S V : Type} [DecidableEq S] [DecidableEq V]
    (n : SSSTreeNode S V) (key : List S) (value : V) :
    SSSTreeNode S V × Option Bool :=
  match n with
  | .mk nkey nval cs =>
    let i := commonLen nkey key
    if i = key.length then
      if i = nkey.length then
        -- equal keys: `if self.value is None: self.value = value` then
        -- `return self.value == value`; after the conditional assignment the
        -- payload is `some (nval.getD value)`
        (.mk nkey (some (nval.getD value)) cs, some (decide (nval.getD value = value)))
      else
        -- split vertex in two: the inserted key is a strict prefix
        (.mk key (some value) [.mk (nkey.drop i) nval cs], none)
    else
      if i = nkey.length then
        -- the new key starts with the old one: descend into the child whose
        -- first symbol matches, or append a fresh leaf
        (.mk nkey nval (addToChildren cs (key.drop i) value), none)
      else
        -- partial common prefix: splice node with two children
        (.mk (nkey.take i) none
          [.mk (nkey.drop i) nval cs, .mk (key.drop i) (some value) []], none)
termination_by sizeOf n

/-- The child-dispatch loop shared by `SSSTreeNode.__add__` (its
`for child in self.children` search) and `SSSTree.__add__` (its `while` loop):
recurse into the first child whose key's first symbol matches the new key's
first symbol, else append a fresh node.  Python reads `child.key[0]` and
`key[0]`, which raises `IndexError` on an empty list; here first symbols are
compared via `head?` (the callers only pass non-empty keys, and in
well-formed trees child keys are non-empty). -/
def addToChildren {S V : Type} [DecidableEq S] [DecidableEq V]
    (cs : List (SSSTreeNode S V)) (key : List S) (value : V) :
    List (SSSTreeNode S V) :=
  match cs with
  | [] => [.mk key (some value) []]
  | c :: rest =>
    if c.key.head? = key.head? then (nodeAdd c key value).1 :: rest
    else c :: addToChildren rest key value
termination_by sizeOf cs

end

/-- `SSSTree.__add__`: insert at the root.  The source always
`return True`, discarding the node-level return value. -/
def treeAdd {S V : Type} [DecidableEq S] [DecidableEq V]
    (t : SSSTree S V) (key : List S) (value : V) : SSSTree S V × Bool :=
  (⟨addToChildren t.children key value⟩, true)

mutual

/-- `SSSTreeNode.__getitem__`: exact-match descent.  The slice
`key[: len(self.key)]` is `List.take`, `key[len(self.key):]` is `List.drop`. -/
def nodeGet {S V : Type} [DecidableEq S]
    (n : SSSTreeNode S V) (key : List S) : Option V :=
  match n with
  | .mk nkey nval cs =>
    if key = nkey then nval
    else if key.take nkey.length = nkey then
      findGet cs (key.drop nkey.length)
    else none
termination_by sizeOf n

/-- The `for child in self.children: if child.key[0] == key[0]: return child[key]`
loop of `SSSTreeNode.__getitem__`: the first first-symbol match is taken and
its result returned (even when it is `None`).  The remainder key here is
provably non-empty, so `key[0]` cannot raise; `child.key[0]` is compared via
`head?` (non-empty in well-formed trees). -/
def findGet {S V : Type} [DecidableEq S]
    (cs : List (SSSTreeNode S V)) (key : List S) : Option V :=
  match cs with
  | [] => none
  | c :: rest =>
    if c.key.head? = key.head? then nodeGet c key
    else findGet rest key
termination_by sizeOf cs

end

/-- The root `while` loop of `SSSTree.__getitem__`.  Python evaluates
`self.children[i].key[0] == key[0]`, raising `IndexError` when the child's
key or the lookup key is empty; an empty children list skips the loop and
returns `None`. -/
def goGet {S V : Type} [DecidableEq S]
    (cs : List (SSSTreeNode S V)) (key : List S) : Except String (Option V) :=
  match cs with
  | [] => .ok none
  | c :: rest =>
    match c.key.head? with
    | none => .error "IndexError"
    | some a =>
      match key.head? with
      | none => .error "IndexError"
      | some b => if a = b then .ok (nodeGet c key) else goGet rest key

/-- `SSSTree.__getitem__`. -/
def treeGet {S V : Type} [DecidableEq S]
    (t : SSSTree S V) (key : List S) : Except String (Option V) :=
  goGet t.children key

mutual

/-- `SSSTreeNode.__call__`: trace `key` from `start`, appending
`(self.key, self.value)` for every fully matched node along the single
descending path; the shared mutable `stack` is threaded explicitly.
`key[start : start + len(self.key)]` is `(key.drop start).take _`;
the guard `start + len(self.key) > len(key)` precedes it.  After
`start += len(self.key)` we have `start < len(key)` in the child loop,
so `key[start]` cannot raise. -/
def nodeCall {S V : Type} [DecidableEq S]
    (n : SSSTreeNode S V) (key : List S)
    (stack : List (List S × Option V)) (start : Nat) :
    List (List S × Option V) :=
  match n with
  | .mk nkey nval cs =>
    if key.length < start + nkey.length then stack
    else if (key.drop start).take nkey.length = nkey then
      let stack1 := stack ++ [(nkey, nval)]
      let start1 := start + nkey.length
      if start1 = key.length then stack1
      else goNodeCall cs key stack1 start1
    else stack
termination_by sizeOf n

/-- The `for child in self.children` loop of `SSSTreeNode.__call__`: every
child whose key's first symbol equals `key[start]` is called (the source has
no `break`), each call extending the shared stack. -/
def goNodeCall {S V : Type} [DecidableEq S]
    (cs : List (SSSTreeNode S V)) (key : List S)
    (stack : List (List S × Option V)) (start : Nat) :
    List (List S × Option V) :=
  match cs with
  | [] => stack
  | c :: rest =>
    goNodeCall rest key
      (if c.key.head? = key.get? start then nodeCall c key stack start else stack)
      start
termination_by sizeOf cs

end

/-- The root loop of `SSSTree.__call__`.  For the first child whose key's
first symbol equals `key[start]` the node trace is run; if the resulting
stack is non-empty the aggregation loop executes
`sub_key_len += len(stack[j][0])` with `j` undefined, raising `NameError`
on its first iteration.  `child.key[0]` / `key[start]` on empty lists
raise `IndexError`. -/
def goCall {S V : Type} [DecidableEq S]
    (cs : List (SSSTreeNode S V)) (key : List S) (start : Nat) :
    Except String (List (Nat × V)) :=
  match cs with
  | [] => .ok []
  | c :: rest =>
    match c.key.head? with
    | none => .error "IndexError"
    | some a =>
      match key.get? start with
      | none => .error "IndexError"
      | some b =>
        if a ≠ b then goCall rest key start
        else
          match nodeCall c key [] start with
          | [] => .ok []
          | _ :: _ => .error "NameError"

/-- `SSSTree.__call__` (the trace query). -/
def treeCall {S V : Type} [DecidableEq S]
    (t : SSSTree S V) (key : List S) (start : Nat) :
    Except String (List (Nat × V)) :=
  goCall t.children key start

/-- Build a tree by folding `SSSTree.__add__` over a list of entries,
starting from the empty tree `SSSTree()`. -/
def buildTree {S V : Type} [DecidableEq S] [DecidableEq V]
    (entries : List (List S × V)) : SSSTree S V :=
  entries.foldl (fun t e => (treeAdd t e.1 e.2).1) ⟨[]⟩

/-- Reference association-list semantics: the value of the first entry whose
key equals `k` (duplicate inserts never overwrite, so the first insert of a
key wins). -/
def firstVal {S V : Type} [DecidableEq S]
    (entries : List (List S × V)) (k : List S) : Option V :=
  match entries with
  | [] => none
  | e :: rest => if e.1 = k then some e.2 else firstVal rest k

/-- Well-formedness of a trie node (invariants (a)/(b) of the spec's data
model): the node's key fragment is non-empty, the children's first key
symbols are pairwise distinct, and every child is well-formed. -/
def nodeWF {S V : Type} : SSSTreeNode S V → Prop
  | .mk k _ cs =>
    k ≠ [] ∧ (cs.map fun c => c.key.head?).Nodup ∧ ∀ c ∈ cs, nodeWF c
termination_by n => sizeOf n
decreasing_by
  exact Nat.lt_trans (List.sizeOf_lt_of_mem (by assumption)) (by simp)

/-- Well-formedness of the whole trie: root children have pairwise distinct
first key symbols and each is a well-formed node. -/
def treeWF {S V : Type} (t : SSSTree S V) : Prop :=
  (t.children.map fun c => c.key.head?).Nodup ∧ ∀ c ∈ t.children, nodeWF c

/-- Structural induction over the nested inductive of trie nodes. -/
def SSSTreeNode.strongInd {S V : Type} {P : SSSTreeNode S V → Prop}
    (h : ∀ k v cs, (∀ c ∈ cs, P c) → P (.mk k v cs)) : ∀ n, P n
  | .mk k v cs => h k v cs (fun c hc => SSSTreeNode.strongInd h c)
termination_by n => sizeOf n
decreasing_by
  exact Nat.lt_trans (List.sizeOf_lt_of_mem hc) (by simp)

theorem commonLen_le_left {S : Type} [DecidableEq S] (a b : List S) :
    commonLen a b ≤ a.length := by
  induction a generalizing b with
  | nil => simp [commonLen]
  | cons x xs ih =>
    cases b with
    | nil => simp [commonLen]
    | cons y ys =>
      simp only [commonLen]
      split
      · simpa using ih ys
      · simp

theorem commonLen_le_right {S : Type} [DecidableEq S] (a b : List S) :
    commonLen a b ≤ b.length := by
  induction a generalizing b with
  | nil => simp [commonLen]
  | cons x xs ih =>
    cases b with
    | nil => simp [commonLen]
    | cons y ys =>
      simp only [commonLen]
      split
      · simpa using ih ys
      · simp

theorem commonLen_take_eq {S : Type} [DecidableEq S] (a b : List S) :
    a.take (commonLen a b) = b.take (commonLen a b) := by
  induction a generalizing b with
  | nil => simp [commonLen]
  | cons x xs ih =>
    cases b with
    | nil => simp [commonLen]
    | cons y ys =>
      simp only [commonLen]
      split
      · next h => simp [h, ih ys]
      · simp

theorem commonLen_stop {S : Type} [DecidableEq S] (a b : List S)
    (ha : commonLen a b < a.length) (hb : commonLen a b < b.length) :
    a[commonLen a b]? ≠ b[commonLen a b]? := by
  induction a generalizing b with
  | nil => simp at ha
  | cons x xs ih =>
    cases b with
    | nil => simp at hb
    | cons y ys =>
      by_cases h : x = y
      · have hc : commonLen (x :: xs) (y :: ys) = commonLen xs ys + 1 := by
          simp [commonLen, h]
        rw [hc] at ha hb ⊢
        simp only [List.length_cons] at ha hb
        simpa using ih ys (by omega) (by omega)
      · have hc : commonLen (x :: xs) (y :: ys) = 0 := by simp [commonLen, h]
        rw [hc]
        simpa using h

theorem commonLen_pos {S : Type} [DecidableEq S] (a b : List S)
    (h : a.head? = b.head?) (ha : a ≠ []) : 1 ≤ commonLen a b := by
  cases a with
  | nil => exact absurd rfl ha
  | cons x xs =>
    cases b with
    | nil => simp at h
    | cons y ys =>
      simp only [List.head?_cons, Option.some.injEq] at h
      simp [commonLen, h]

theorem commonLen_eq_of_len {S : Type} [DecidableEq S] (a b : List S)
    (h1 : commonLen a b = a.length) (h2 : commonLen a b = b.length) : a = b := by
  have h := commonLen_take_eq a b
  rw [h1, List.take_length] at h
  have hl : a.length = b.length := by omega
  rw [h, hl, List.take_length]

@[simp] theorem SSSTreeNode.key_mk {S V : Type} (k : List S) (v : Option V) (cs) :
    (SSSTreeNode.mk k v cs).key = k := rfl

@[simp] theorem SSSTreeNode.value_mk {S V : Type} (k : List S) (v : Option V) (cs) :
    (SSSTreeNode.mk k v cs).value = v := rfl

@[simp] theorem SSSTreeNode.children_mk {S V : Type} (k : List S) (v : Option V) (cs) :
    (SSSTreeNode.mk k v cs).children = cs := rfl

theorem head?_take_pos {S : Type} (l : List S) (i : Nat) (hi : 1 ≤ i) :
    (l.take i).head? = l.head? := by
  cases l with
  | nil => simp
  | cons x xs =>
    cases i with
    | zero => omega
    | succ j => simp

/-- Inserting a key whose first symbol matches the node's keeps the node's
first key symbol and keeps its key non-empty (all four branches of
`SSSTreeNode.__add__`). -/
theorem nodeAdd_key {S V : Type} [DecidableEq S] [DecidableEq V]
    (n : SSSTreeNode S V) (key : List S) (value : V)
    (hk : key ≠ []) (hh : key.head? = n.key.head?) :
    ((nodeAdd n key value).1).key.head? = n.key.head? ∧
      ((nodeAdd n key value).1).key ≠ [] := by
  obtain ⟨nkey, nval, cs⟩ := n
  simp only [SSSTreeNode.key_mk] at hh
  have hnk : nkey ≠ [] := by
    intro h
    rw [h] at hh
    cases key with
    | nil => exact hk rfl
    | cons a as => simp at hh
  simp only [nodeAdd]
  split
  · split
    · simp [hnk]
    · simp [hh, hk]
  · split
    · simp [hnk]
    · have hpos : 1 ≤ commonLen nkey key := commonLen_pos nkey key hh.symm hnk
      have hht : (nkey.take (commonLen nkey key)).head? = nkey.head? :=
        head?_take_pos nkey _ hpos
      have hne : nkey.take (commonLen nkey key) ≠ [] := by
        intro h
        rw [h] at hht
        cases nkey with
        | nil => exact hnk rfl
        | cons a as => simp at hht
      simp [hht, hne]

/-- Exact lookup on a freshly created leaf node. -/
theorem nodeGet_leaf {S V : Type} [DecidableEq S] (key k' : List S) (v : V) :
    nodeGet (.mk key (some v) []) k' = if k' = key then some v else none := by
  simp only [nodeGet, findGet]
  by_cases h : k' = key
  · simp [h]
  · simp [h]

/-- Peeling a common leading segment off both the node key and the lookup
key leaves exact lookup unchanged. -/
theorem nodeGet_shift {S V : Type} [DecidableEq S]
    (p q r : List S) (nv : Option V) (cs : List (SSSTreeNode S V)) :
    nodeGet (.mk (p ++ q) nv cs) (p ++ r) = nodeGet (.mk q nv cs) r := by
  simp only [nodeGet]
  have h2 : (p ++ r).take (p ++ q).length = p ++ r.take q.length := by
    rw [List.length_append, List.take_append]
  have h3 : (p ++ r).drop (p ++ q).length = r.drop q.length := by
    rw [List.length_append, List.drop_append]
  rw [h2, h3]
  simp only [List.append_cancel_left_eq]

theorem nodeGet_self {S V : Type} [DecidableEq S]
    (nkey : List S) (nval : Option V) (cs) :
    nodeGet (.mk nkey nval cs) nkey = nval := by
  simp [nodeGet]

theorem nodeGet_descend {S V : Type} [DecidableEq S]
    (nkey k' : List S) (nval : Option V) (cs)
    (h1 : k' ≠ nkey) (h2 : k'.take nkey.length = nkey) :
    nodeGet (.mk nkey nval cs) k' = findGet cs (k'.drop nkey.length) := by
  simp [nodeGet, h1, h2]

theorem nodeGet_no_match {S V : Type} [DecidableEq S]
    (nkey k' : List S) (nval : Option V) (cs)
    (h1 : k' ≠ nkey) (h2 : k'.take nkey.length ≠ nkey) :
    nodeGet (.mk nkey nval cs) k' = none := by
  simp [nodeGet, h1, h2]

theorem nodeGet_value_indep {S V : Type} [DecidableEq S]
    (nkey k' : List S) (nv1 nv2 : Option V) (cs) (h : k' ≠ nkey) :
    nodeGet (.mk nkey nv1 cs) k' = nodeGet (.mk nkey nv2 cs) k' := by
  simp [nodeGet, h]

/-- Effect of the child-dispatch insertion (`addToChildren`) on the
child-dispatch lookup (`findGet`), with the effect on the modified child
supplied as a hypothesis (discharged later by induction over nodes):
inserting `key` makes looking up `key` return the old value if present and
the new one otherwise, and leaves every other lookup unchanged. -/
theorem findGet_addToChildren_aux {S V : Type} [DecidableEq S] [DecidableEq V]
    (cs : List (SSSTreeNode S V)) (key : List S) (value : V)
    (hk : key ≠ [])
    (IH : ∀ c ∈ cs, key.head? = c.key.head? → ∀ k', k' ≠ [] →
      nodeGet (nodeAdd c key value).1 k' =
        if k' = key then some ((nodeGet c key).getD value) else nodeGet c k')
    (k' : List S) (hk' : k' ≠ []) :
    findGet (addToChildren cs key value) k' =
      if k' = key then some ((findGet cs key).getD value) else findGet cs k' := by
  induction cs with
  | nil =>
    simp only [addToChildren, findGet, SSSTreeNode.key_mk]
    by_cases hm : key.head? = k'.head?
    · rw [if_pos hm, nodeGet_leaf]
      by_cases he : k' = key
      · simp [he]
      · simp [he]
    · rw [if_neg hm]
      have he : k' ≠ key := by
        intro h
        exact hm (by rw [h])
      simp [he]
  | cons c rest ih =>
    simp only [addToChildren]
    by_cases hc : c.key.head? = key.head?
    · rw [if_pos hc]
      have hkey := nodeAdd_key c key value hk (by rw [hc])
      simp only [findGet, hkey.1, hc]
      by_cases hm : key.head? = k'.head?
      · rw [if_pos hm, IH c (by simp) (by rw [hc]) k' hk']
        by_cases he : k' = key
        · simp [he, if_pos hm]
        · simp [he, if_pos hm]
      · rw [if_neg hm, if_neg hm]
        have he : k' ≠ key := by
          intro h
          exact hm (by rw [h])
        simp [he]
    · rw [if_neg hc]
      simp only [findGet]
      by_cases hm : c.key.head? = k'.head?
      · rw [if_pos hm, if_pos hm]
        have he : k' ≠ key := by
          intro h
          rw [h] at hm
          exact hc hm
        simp [he]
      · rw [if_neg hm, if_neg hm]
        rw [ih (fun d hd => IH d (by simp [hd]))]
        by_cases he : k' = key
        · simp [he, if_neg hc]
        · simp [he]

/-- Central insertion/lookup lemma for `SSSTreeNode.__add__` versus
`SSSTreeNode.__getitem__`: when the inserted key shares its first symbol
with the node's key, looking up the inserted key afterwards returns the old
payload if one was present and the new value otherwise, and every other
lookup is unchanged. -/
theorem nodeGet_nodeAdd {S V : Type} [DecidableEq S] [DecidableEq V]
    (n : SSSTreeNode S V) :
    ∀ key value, key ≠ [] → key.head? = n.key.head? → ∀ k', k' ≠ [] →
      nodeGet (nodeAdd n key value).1 k' =
        if k' = key then some ((nodeGet n key).getD value) else nodeGet n k' := by
  induction n using SSSTreeNode.strongInd with
  | h nkey nval cs IH =>
    intro key value hk hh k' hk'
    simp only [SSSTreeNode.key_mk] at hh
    have hnk : nkey ≠ [] := by
      intro h
      rw [h] at hh
      cases key with
      | nil => exact hk rfl
      | cons a as => simp at hh
    by_cases h1 : commonLen nkey key = key.length
    · by_cases h2 : commonLen nkey key = nkey.length
      · -- equal keys
        have hkeq : nkey = key := commonLen_eq_of_len nkey key h2 h1
        subst hkeq
        simp only [nodeAdd, if_pos h1, if_pos h2]
        by_cases he : k' = nkey
        · subst he
          rw [if_pos rfl, nodeGet_self, nodeGet_self]
        · rw [if_neg he]
          exact nodeGet_value_indep nkey k' _ nval cs he
      · -- split vertex in two: inserted key is a strict prefix of the node key
        have hlen : commonLen nkey key < nkey.length :=
          lt_of_le_of_ne (commonLen_le_left nkey key) h2
        have htk : nkey.take (commonLen nkey key) = key := by
          rw [commonLen_take_eq nkey key, h1, List.take_length]
        have hklen : key.length = commonLen nkey key := h1.symm
        have hsplit : nkey = key ++ nkey.drop (commonLen nkey key) := by
          conv_lhs => rw [← List.take_append_drop (commonLen nkey key) nkey]
          rw [htk]
        simp only [nodeAdd, if_pos h1, if_neg h2]
        by_cases he : k' = key
        · subst he
          rw [if_pos rfl, nodeGet_self]
          have hne1 : k' ≠ nkey := by
            intro h
            exact h2 (h1.trans (congrArg List.length h))
          have hne2 : k'.take nkey.length ≠ nkey := by
            intro h
            have hl := congrArg List.length h
            rw [List.length_take] at hl
            omega
          rw [nodeGet_no_match nkey k' nval cs hne1 hne2]
          rfl
        · rw [if_neg he]
          by_cases hp : k'.take key.length = key
          · have hr : k' = key ++ k'.drop key.length := by
              conv_lhs => rw [← List.take_append_drop key.length k']
              rw [hp]
            rw [nodeGet_descend key k' (some value) _ he hp]
            simp only [findGet, SSSTreeNode.key_mk]
            by_cases hh1 :
                (nkey.drop (commonLen nkey key)).head? = (k'.drop key.length).head?
            · rw [if_pos hh1]
              conv_rhs => rw [hsplit, hr]
              rw [nodeGet_shift]
            · rw [if_neg hh1]
              have hq1 : k' ≠ nkey := by
                intro h
                rw [hr, hsplit] at h
                exact hh1 (by rw [List.append_cancel_left h])
              have hq2 : k'.take nkey.length ≠ nkey := by
                intro h
                apply hh1
                rw [List.head?_drop, List.head?_drop, ← hklen, ← h,
                  List.getElem?_take_of_lt (by omega)]
              rw [nodeGet_no_match nkey k' nval cs hq1 hq2]
          · have hq1 : k' ≠ nkey := by
              intro h
              apply hp
              rw [h, hklen]
              exact htk
            have hq2 : k'.take nkey.length ≠ nkey := by
              intro h
              apply hp
              have h3 : k'.take key.length = (k'.take nkey.length).take key.length := by
                rw [List.take_take, Nat.min_eq_left (by omega)]
              rw [h3, h, hklen]
              exact htk
            rw [nodeGet_no_match nkey k' nval cs hq1 hq2]
            exact nodeGet_no_match key k' (some value) _ he hp
    · by_cases h2 : commonLen nkey key = nkey.length
      · -- descend: the node key is a strict prefix of the inserted key
        have hlen : commonLen nkey key < key.length :=
          lt_of_le_of_ne (commonLen_le_right nkey key) h1
        have htk : key.take (commonLen nkey key) = nkey := by
          rw [← commonLen_take_eq nkey key, h2, List.take_length]
        have hklen : nkey.length = commonLen nkey key := h2.symm
        have hkey2 : key.drop (commonLen nkey key) ≠ [] := by
          intro h
          have := congrArg List.length h
          rw [List.length_drop] at this
          simp at this
          omega
        have hsplit : key = nkey ++ key.drop (commonLen nkey key) := by
          conv_lhs => rw [← List.take_append_drop (commonLen nkey key) key]
          rw [htk]
        have hIH : ∀ c ∈ cs, (key.drop (commonLen nkey key)).head? = c.key.head? →
            ∀ k'', k'' ≠ [] →
            nodeGet (nodeAdd c (key.drop (commonLen nkey key)) value).1 k'' =
              if k'' = key.drop (commonLen nkey key) then
                some ((nodeGet c (key.drop (commonLen nkey key))).getD value)
              else nodeGet c k'' :=
          fun c hc hhc k'' hk'' => IH c hc _ value hkey2 hhc k'' hk''
        have hFL := findGet_addToChildren_aux cs (key.drop (commonLen nkey key))
          value hkey2 hIH
        simp only [nodeAdd, if_neg h1, if_pos h2]
        by_cases he : k' = key
        · subst he
          rw [if_pos rfl]
          have hne : k' ≠ nkey := by
            intro h
            have hl := congrArg List.length h
            exact h1 (hklen.symm.trans hl.symm)
          rw [nodeGet_descend nkey k' nval _ hne (by rw [hklen]; exact htk),
            nodeGet_descend nkey k' nval cs hne (by rw [hklen]; exact htk)]
          rw [hklen, hFL _ hkey2, if_pos rfl]
        · rw [if_neg he]
          by_cases hq : k' = nkey
          · subst hq
            rw [nodeGet_self, nodeGet_self]
          · by_cases hp : k'.take nkey.length = nkey
            · have hrne : k'.drop nkey.length ≠ [] := by
                intro h
              -- if the remainder is empty the whole key was consumed
                have hl : k'.length ≤ nkey.length := by
                  have := congrArg List.length h
                  rw [List.length_drop] at this
                  simp at this
                  omega
                apply hq
                rw [← hp]
                exact (List.take_of_length_le hl).symm
              have hrne' : k'.drop (commonLen nkey key) ≠ [] := by
                rw [← hklen]
                exact hrne
              rw [nodeGet_descend nkey k' nval _ hq hp,
                nodeGet_descend nkey k' nval cs hq hp]
              rw [hklen, hFL _ hrne']
              have hne2 : k'.drop (commonLen nkey key) ≠ key.drop (commonLen nkey key) := by
                intro h
                apply he
                have hx : k' = nkey ++ k'.drop nkey.length := by
                  conv_lhs => rw [← List.take_append_drop nkey.length k']
                  rw [hp]
                rw [hx, hklen, h]
                exact hsplit.symm
              rw [if_neg hne2]
            · rw [nodeGet_no_match nkey k' nval _ hq hp,
                nodeGet_no_match nkey k' nval cs hq hp]
      · -- partial common prefix: the node is split into a splice with two
        -- children
        have hlt1 : commonLen nkey key < nkey.length :=
          lt_of_le_of_ne (commonLen_le_left nkey key) h2
        have hlt2 : commonLen nkey key < key.length :=
          lt_of_le_of_ne (commonLen_le_right nkey key) h1
        have hpos : 1 ≤ commonLen nkey key := commonLen_pos nkey key hh.symm hnk
        have hstop := commonLen_stop nkey key hlt1 hlt2
        have htk : nkey.take (commonLen nkey key) = key.take (commonLen nkey key) :=
          commonLen_take_eq nkey key
        have hplen : (nkey.take (commonLen nkey key)).length = commonLen nkey key := by
          rw [List.length_take]
          omega
        have hsplitn : nkey = nkey.take (commonLen nkey key) ++ nkey.drop (commonLen nkey key) :=
          (List.take_append_drop _ nkey).symm
        have hsplitk : key = nkey.take (commonLen nkey key) ++ key.drop (commonLen nkey key) := by
          conv_lhs => rw [← List.take_append_drop (commonLen nkey key) key]
          rw [htk]
        have hheadn : (nkey.drop (commonLen nkey key)).head? = nkey[commonLen nkey key]? :=
          List.head?_drop nkey _
        have hheadk : (key.drop (commonLen nkey key)).head? = key[commonLen nkey key]? :=
          List.head?_drop key _
        simp only [nodeAdd, if_neg h1, if_neg h2]
        by_cases he : k' = key
        · subst he
          rw [if_pos rfl]
          have hne1 : k' ≠ nkey := by
            intro h
            rw [h] at hstop
            exact hstop rfl
          have hne2 : k'.take nkey.length ≠ nkey := by
            intro h
            have hgx : (k'.take nkey.length)[commonLen nkey k']? = k'[commonLen nkey k']? :=
              List.getElem?_take_of_lt hlt1
            rw [h] at hgx
            exact hstop hgx
          rw [nodeGet_no_match nkey k' nval cs hne1 hne2]
          have hne3 : k' ≠ nkey.take (commonLen nkey k') := by
            intro h
            have := congrArg List.length h
            rw [hplen] at this
            omega
          rw [nodeGet_descend _ k' none _ hne3 (by rw [hplen]; exact htk.symm)]
          simp only [findGet, SSSTreeNode.key_mk, hplen]
          rw [if_neg (by rw [hheadn, hheadk]; exact hstop)]
          simp [nodeGet_leaf]
        · rw [if_neg he]
          by_cases hsp : k' = nkey.take (commonLen nkey key)
          · rw [hsp, nodeGet_self]
            have hne1 : nkey.take (commonLen nkey key) ≠ nkey := by
              intro h
              have := congrArg List.length h
              rw [hplen] at this
              omega
            have hne2 : (nkey.take (commonLen nkey key)).take nkey.length ≠ nkey := by
              rw [List.take_of_length_le (by rw [hplen]; omega)]
              exact hne1
            rw [nodeGet_no_match nkey _ nval cs hne1 hne2]
          · by_cases hp : k'.take (commonLen nkey key) = nkey.take (commonLen nkey key)
            · have hr : k' = nkey.take (commonLen nkey key) ++ k'.drop (commonLen nkey key) := by
                conv_lhs => rw [← List.take_append_drop (commonLen nkey key) k']
                rw [hp]
              have hrne : k'.drop (commonLen nkey key) ≠ [] := by
                intro h
                rw [h, List.append_nil] at hr
                exact hsp hr
              have hheadr : (k'.drop (commonLen nkey key)).head? = k'[commonLen nkey key]? :=
                List.head?_drop k' _
              rw [nodeGet_descend _ k' none _ hsp (by rw [hplen]; exact hp)]
              simp only [findGet, SSSTreeNode.key_mk, hplen]
              by_cases hr1 : (nkey.drop (commonLen nkey key)).head? = (k'.drop (commonLen nkey key)).head?
              · rw [if_pos hr1]
                conv_rhs => rw [hsplitn, hr]
                rw [nodeGet_shift]
              · rw [if_neg hr1]
                by_cases hr2 : (key.drop (commonLen nkey key)).head? = (k'.drop (commonLen nkey key)).head?
                · rw [if_pos hr2, nodeGet_leaf]
                  have hnel : k'.drop (commonLen nkey key) ≠ key.drop (commonLen nkey key) := by
                    intro h
                    apply he
                    rw [hr, h]
                    exact hsplitk.symm
                  rw [if_neg hnel]
                  have hq1 : k' ≠ nkey := by
                    intro h
                    apply hr1
                    rw [← h]
                  have hq2 : k'.take nkey.length ≠ nkey := by
                    intro h
                    apply hr1
                    rw [hheadn, hheadr]
                    have hgx : (k'.take nkey.length)[commonLen nkey key]? = k'[commonLen nkey key]? :=
                      List.getElem?_take_of_lt hlt1
                    rw [h] at hgx
                    rw [hgx]
                  rw [nodeGet_no_match nkey k' nval cs hq1 hq2]
                · rw [if_neg hr2]
                  have hq1 : k' ≠ nkey := by
                    intro h
                    apply hr1
                    rw [← h]
                  have hq2 : k'.take nkey.length ≠ nkey := by
                    intro h
                    apply hr1
                    rw [hheadn, hheadr]
                    have hgx : (k'.take nkey.length)[commonLen nkey key]? = k'[commonLen nkey key]? :=
                      List.getElem?_take_of_lt hlt1
                    rw [h] at hgx
                    rw [hgx]
                  rw [nodeGet_no_match nkey k' nval cs hq1 hq2]
            · have hq1 : k' ≠ nkey := by
                intro h
                apply hp
                rw [h]
              have hq2 : k'.take nkey.length ≠ nkey := by
                intro h
                apply hp
                have h3 : k'.take (commonLen nkey key) = (k'.take nkey.length).take (commonLen nkey key) := by
                  rw [List.take_take, Nat.min_eq_left (by omega)]
                rw [h3, h]
              rw [nodeGet_no_match nkey k' nval cs hq1 hq2]
              exact nodeGet_no_match _ k' none _ hsp
                (by rw [hplen]; exact hp)

/-- First key symbols of the updated children list: unchanged when some child
already starts with the inserted key's first symbol, extended by it
otherwise. -/
theorem addToChildren_heads {S V : Type} [DecidableEq S] [DecidableEq V]
    (cs : List (SSSTreeNode S V)) (key : List S) (value : V) (hk : key ≠ []) :
    (addToChildren cs key value).map (fun c => c.key.head?) =
      if key.head? ∈ cs.map (fun c => c.key.head?) then
        cs.map (fun c => c.key.head?)
      else cs.map (fun c => c.key.head?) ++ [key.head?] := by
  induction cs with
  | nil => simp [addToChildren]
  | cons c rest ih =>
    simp only [addToChildren]
    by_cases hc : c.key.head? = key.head?
    · rw [if_pos hc]
      have hkey := nodeAdd_key c key value hk (by rw [hc])
      simp [hkey.1, hc]
    · rw [if_neg hc]
      simp only [List.map_cons, ih]
      by_cases hm : key.head? ∈ rest.map (fun c => c.key.head?)
      · simp [hm, Ne.symm hc]
      · simp [hm, Ne.symm hc]

/-- Every node of the updated children list is well-formed, with the effect
on the modified child supplied as a hypothesis. -/
theorem addToChildren_wf_aux {S V : Type} [DecidableEq S] [DecidableEq V]
    (cs : List (SSSTreeNode S V)) (key : List S) (value : V) (hk : key ≠ [])
    (IH : ∀ c ∈ cs, key.head? = c.key.head? → nodeWF c → nodeWF (nodeAdd c key value).1)
    (hcs : ∀ c ∈ cs, nodeWF c) :
    ∀ x ∈ addToChildren cs key value, nodeWF x := by
  revert IH hcs
  induction cs with
  | nil =>
    intro IH hcs x hx
    simp only [addToChildren, List.mem_singleton] at hx
    subst hx
    simp [nodeWF, hk]
  | cons chd rest ih =>
    intro IH hcs x hx
    simp only [addToChildren] at hx
    by_cases hc : chd.key.head? = key.head?
    · rw [if_pos hc] at hx
      rcases List.mem_cons.mp hx with h | h
      · rw [h]
        exact IH chd (by simp) (by rw [hc]) (hcs chd (by simp))
      · exact hcs _ (by simp [h])
    · rw [if_neg hc] at hx
      rcases List.mem_cons.mp hx with h | h
      · rw [h]
        exact hcs chd (by simp)
      · exact ih (fun d hd hhd hwfd => IH d (by simp [hd]) hhd hwfd)
          (fun d hd => hcs d (by simp [hd])) x h

/-- Insertion preserves node well-formedness (the three non-trivial branches
of `SSSTreeNode.__add__` never break invariants (a)/(b)). -/
theorem nodeAdd_wf {S V : Type} [DecidableEq S] [DecidableEq V]
    (n : SSSTreeNode S V) :
    ∀ key value, key ≠ [] → key.head? = n.key.head? → nodeWF n →
      nodeWF (nodeAdd n key value).1 := by
  induction n using SSSTreeNode.strongInd with
  | h nkey nval cs IH =>
    intro key value hk hh hwf
    simp only [SSSTreeNode.key_mk] at hh
    simp only [nodeWF] at hwf
    obtain ⟨hnk, hnd, hcs⟩ := hwf
    by_cases h1 : commonLen nkey key = key.length
    · by_cases h2 : commonLen nkey key = nkey.length
      · simp only [nodeAdd, if_pos h1, if_pos h2, nodeWF]
        exact ⟨hnk, hnd, hcs⟩
      · have hlen : commonLen nkey key < nkey.length :=
          lt_of_le_of_ne (commonLen_le_left nkey key) h2
        simp only [nodeAdd, if_pos h1, if_neg h2, nodeWF]
        refine ⟨hk, by simp, ?_⟩
        intro c hc
        simp only [List.mem_singleton] at hc
        subst hc
        simp only [nodeWF]
        refine ⟨?_, hnd, hcs⟩
        apply List.ne_nil_of_length_pos
        rw [List.length_drop]
        omega
    · by_cases h2 : commonLen nkey key = nkey.length
      · have hlen : commonLen nkey key < key.length :=
          lt_of_le_of_ne (commonLen_le_right nkey key) h1
        have hkey2 : key.drop (commonLen nkey key) ≠ [] := by
          apply List.ne_nil_of_length_pos
          rw [List.length_drop]
          omega
        simp only [nodeAdd, if_neg h1, if_pos h2, nodeWF]
        refine ⟨hnk, ?_, ?_⟩
        · rw [addToChildren_heads cs _ value hkey2]
          split
          · exact hnd
          · next hm =>
              simp [List.nodup_append, hnd]
              simpa using hm
        · exact addToChildren_wf_aux cs _ value hkey2
            (fun c hc hhc hwfc => IH c hc _ value hkey2 hhc hwfc) hcs
      · have hnkne : nkey ≠ [] := hnk
        have hlt1 : commonLen nkey key < nkey.length :=
          lt_of_le_of_ne (commonLen_le_left nkey key) h2
        have hlt2 : commonLen nkey key < key.length :=
          lt_of_le_of_ne (commonLen_le_right nkey key) h1
        have hpos : 1 ≤ commonLen nkey key := commonLen_pos nkey key hh.symm hnkne
        have hstop := commonLen_stop nkey key hlt1 hlt2
        simp only [nodeAdd, if_neg h1, if_neg h2, nodeWF]
        refine ⟨?_, ?_, ?_⟩
        · apply List.ne_nil_of_length_pos
          rw [List.length_take]
          omega
        · simp only [List.map_cons, List.map_nil, SSSTreeNode.key_mk]
          have : (nkey.drop (commonLen nkey key)).head? ≠
              (key.drop (commonLen nkey key)).head? := by
            rw [List.head?_drop, List.head?_drop]
            exact hstop
          simp [this]
          exact hstop
        · intro c hc
          simp only [List.mem_cons, List.not_mem_nil, or_false] at hc
          rcases hc with h | h
          · rw [h]
            simp only [nodeWF]
            refine ⟨?_, hnd, hcs⟩
            apply List.ne_nil_of_length_pos
            rw [List.length_drop]
            omega
          · rw [h]
            simp only [nodeWF]
            refine ⟨?_, by simp, by simp⟩
            apply List.ne_nil_of_length_pos
            rw [List.length_drop]
            omega

/-- `SSSTree.__add__` preserves well-formedness of the whole trie. -/
theorem treeWF_treeAdd {S V : Type} [DecidableEq S] [DecidableEq V]
    (t : SSSTree S V) (key : List S) (value : V)
    (hk : key ≠ []) (hwf : treeWF t) : treeWF (treeAdd t key value).1 := by
  obtain ⟨hnd, hcs⟩ := hwf
  constructor
  · show ((addToChildren t.children key value).map fun c => c.key.head?).Nodup
    rw [addToChildren_heads t.children key value hk]
    split
    · exact hnd
    · next hm =>
        simp [List.nodup_append, hnd]
        simpa using hm
  · exact addToChildren_wf_aux t.children key value hk
      (fun c _ hhc hwfc => nodeAdd_wf c key value hk hhc hwfc) hcs

/-- A trie built from entries with non-empty keys is well-formed. -/
theorem treeWF_buildFrom {S V : Type} [DecidableEq S] [DecidableEq V]
    (entries : List (List S × V)) (h : ∀ e ∈ entries, e.1 ≠ []) :
    ∀ t : SSSTree S V, treeWF t →
      treeWF (entries.foldl (fun t e => (treeAdd t e.1 e.2).1) t) := by
  induction entries with
  | nil =>
    intro t hwf
    simpa using hwf
  | cons e rest ih =>
    intro t hwf
    simp only [List.foldl_cons]
    exact ih (fun d hd => h d (by simp [hd])) _
      (treeWF_treeAdd t e.1 e.2 (h e (by simp)) hwf)

/-- Non-emptiness of root child keys is preserved by insertion. -/
theorem addToChildren_keysNE {S V : Type} [DecidableEq S] [DecidableEq V]
    (cs : List (SSSTreeNode S V)) (key : List S) (value : V)
    (hk : key ≠ []) (hne : ∀ c ∈ cs, c.key ≠ []) :
    ∀ x ∈ addToChildren cs key value, x.key ≠ [] := by
  revert hne
  induction cs with
  | nil =>
    intro hne x hx
    simp only [addToChildren, List.mem_singleton] at hx
    rw [hx]
    simpa using hk
  | cons chd rest ih =>
    intro hne x hx
    simp only [addToChildren] at hx
    by_cases hc : chd.key.head? = key.head?
    · rw [if_pos hc] at hx
      rcases List.mem_cons.mp hx with h | h
      · rw [h]
        exact (nodeAdd_key chd key value hk (by rw [hc])).2
      · exact hne _ (by simp [h])
    · rw [if_neg hc] at hx
      rcases List.mem_cons.mp hx with h | h
      · rw [h]
        exact hne chd (by simp)
      · exact ih (fun d hd => hne d (by simp [hd])) x h

/-- Root child keys of a trie built from non-empty-key entries are
non-empty. -/
theorem buildFrom_keysNE {S V : Type} [DecidableEq S] [DecidableEq V]
    (entries : List (List S × V)) (h : ∀ e ∈ entries, e.1 ≠ []) :
    ∀ t : SSSTree S V, (∀ c ∈ t.children, c.key ≠ []) →
      ∀ c ∈ (entries.foldl (fun t e => (treeAdd t e.1 e.2).1) t).children,
        c.key ≠ [] := by
  induction entries with
  | nil =>
    intro t hne
    simpa using hne
  | cons e rest ih =>
    intro t hne
    simp only [List.foldl_cons]
    exact ih (fun d hd => h d (by simp [hd])) _
      (addToChildren_keysNE t.children e.1 e.2 (h e (by simp)) hne)

/-- For non-empty keys and non-empty root child keys, the root `while` loop
of `SSSTree.__getitem__` never raises and agrees with the pure first-match
dispatch. -/
theorem goGet_eq_findGet {S V : Type} [DecidableEq S]
    (cs : List (SSSTreeNode S V)) (key : List S)
    (hne : ∀ c ∈ cs, c.key ≠ []) (hk : key ≠ []) :
    goGet cs key = .ok (findGet cs key) := by
  induction cs with
  | nil => simp [goGet, findGet]
  | cons c rest ih =>
    obtain ⟨a, ha⟩ : ∃ a, c.key.head? = some a := by
      cases hck : c.key with
      | nil => exact absurd hck (hne c (by simp))
      | cons y ys => exact ⟨y, by simp [hck]⟩
    obtain ⟨b, hb⟩ : ∃ b, key.head? = some b := by
      cases hkk : key with
      | nil => exact absurd hkk hk
      | cons y ys => exact ⟨y, by simp [hkk]⟩
    simp only [goGet, findGet, ha, hb]
    by_cases hab : a = b
    · simp [hab]
    · have : ¬ (some a = some b) := by simp [hab]
      simp [hab, this]
      exact ih (fun d hd => hne d (by simp [hd]))

/-- Folding insertions over a start trie overlays the association list on
the start trie's lookup: the first bound value wins. -/
theorem findGet_buildFrom {S V : Type} [DecidableEq S] [DecidableEq V]
    (entries : List (List S × V)) (h : ∀ e ∈ entries, e.1 ≠ []) :
    ∀ cs : List (SSSTreeNode S V), ∀ k, k ≠ [] →
      findGet ((entries.foldl (fun t e => (treeAdd t e.1 e.2).1)
          (⟨cs⟩ : SSSTree S V)).children) k
        = (findGet cs k).or (firstVal entries k) := by
  induction entries with
  | nil =>
    intro cs k hk
    simp [firstVal]
  | cons e rest ih =>
    intro cs k hk
    simp only [List.foldl_cons]
    have he1 : e.1 ≠ [] := h e (by simp)
    have step : (treeAdd (⟨cs⟩ : SSSTree S V) e.1 e.2).1
        = ⟨addToChildren cs e.1 e.2⟩ := rfl
    rw [step, ih (fun d hd => h d (by simp [hd])) _ k hk]
    rw [findGet_addToChildren_aux cs e.1 e.2 he1
      (fun c _ hhc k' hk' => nodeGet_nodeAdd c e.1 e.2 he1 hhc k' hk') k hk]
    by_cases hek : k = e.1
    · rw [if_pos hek, firstVal]
      rw [if_pos hek.symm]
      cases hfg : findGet cs e.1 with
      | none =>
        rw [hek, hfg]
        simp
      | some w =>
        rw [hek, hfg]
        simp
    · rw [if_neg hek, firstVal, if_neg (fun hx => hek hx.symm)]

theorem commonLen_self {S : Type} [DecidableEq S] (a : List S) :
    commonLen a a = a.length := by
  induction a with
  | nil => simp [commonLen]
  | cons x xs ih => simp [commonLen, ih]

/-- Claim C3: after any sequence of insertions of non-empty keys into the
trie, at every node (including the root) the children have pairwise distinct
first key symbols and every non-root node's key is non-empty; moreover any
single insertion into any well-formed trie preserves this invariant. -/
theorem c3_trie_invariant {S V : Type} [DecidableEq S] [DecidableEq V]
    (entries : List (List S × V)) (hkeys : ∀ e ∈ entries, e.1 ≠ []) :
    treeWF (buildTree entries) ∧
      ∀ (t : SSSTree S V) (k : List S) (v : V), treeWF t → k ≠ [] →
        treeWF (treeAdd t k v).1 := by
  constructor
  · exact treeWF_buildFrom entries hkeys ⟨[]⟩ ⟨by simp, by simp⟩
  · intro t k v hwf hk
    exact treeWF_treeAdd t k v hk hwf

theorem c3_trie_invariant_witness :
    treeWF (buildTree [([1,2],5),([1,3],6)] : SSSTree Nat Nat) :=
  (c3_trie_invariant [([1,2],5),([1,3],6)] (by simp)).1

/-- Claim C4: for every trie built by insertions of non-empty keys and every
non-empty key `k`, `SSSTree.__getitem__` returns exactly the payload stored
for `k` when `k` equals an inserted key (first insertion wins) and `None`
otherwise — in particular `None` for strict prefixes and strict extensions
of inserted keys, never a partial match. -/
theorem c4_lookup_exact {S V : Type} [DecidableEq S] [DecidableEq V]
    (entries : List (List S × V)) (hkeys : ∀ e ∈ entries, e.1 ≠ [])
    (k : List S) (hk : k ≠ []) :
    treeGet (buildTree entries) k = .ok (firstVal entries k) := by
  have hne := buildFrom_keysNE entries hkeys ⟨[]⟩ (by simp)
  have hb : treeGet (buildTree entries) k
      = .ok (findGet (buildTree entries).children k) :=
    goGet_eq_findGet _ k hne hk
  rw [hb]
  have hov := findGet_buildFrom entries hkeys [] k hk
  rw [buildTree, hov]
  simp [findGet]

theorem c4_lookup_exact_witness :
    treeGet (buildTree [([1,2],7),([1],9)] : SSSTree Nat Nat) [1,2]
      = .ok (firstVal [([1,2],7),([1],9)] [1,2]) :=
  c4_lookup_exact [([1,2],7),([1],9)] (by simp) [1,2] (by simp)

/-- Claim C6: insertion preserves all prior bindings — for every trie with
non-empty root child keys and every key `k1` currently bound to `v1`,
inserting any other entry `(k2, v2)` with `k2 ≠ k1` (including the
node-splitting cases) leaves `lookup(k1)` returning `v1`. -/
theorem c6_insert_frame {S V : Type} [DecidableEq S] [DecidableEq V]
    (t : SSSTree S V) (k1 k2 : List S) (v1 v2 : V)
    (hne : ∀ c ∈ t.children, c.key ≠ []) (hk1 : k1 ≠ []) (hk2 : k2 ≠ [])
    (hkk : k1 ≠ k2) (hold : treeGet t k1 = .ok (some v1)) :
    treeGet (treeAdd t k2 v2).1 k1 = .ok (some v1) := by
  have hf : findGet t.children k1 = some v1 := by
    have hgb := goGet_eq_findGet t.children k1 hne hk1
    rw [treeGet, hgb] at hold
    simpa using hold
  have hnew := addToChildren_keysNE t.children k2 v2 hk2 hne
  have hb2 : treeGet (treeAdd t k2 v2).1 k1
      = .ok (findGet (addToChildren t.children k2 v2) k1) :=
    goGet_eq_findGet _ k1 hnew hk1
  rw [hb2, findGet_addToChildren_aux t.children k2 v2 hk2
    (fun c _ hhc k' hk' => nodeGet_nodeAdd c k2 v2 hk2 hhc k' hk') k1 hk1,
    if_neg hkk, hf]

theorem c6_insert_frame_witness :
    treeGet (treeAdd (buildTree [([1],10)] : SSSTree Nat Nat) [1,2] 20).1 [1]
      = .ok (some 10) :=
  c6_insert_frame (buildTree [([1],10)]) [1] [1,2] 10 20
    (by simp [buildTree, treeAdd, addToChildren, SSSTreeNode.key])
    (by simp) (by simp) (by simp)
    (by simp [treeGet, goGet, buildTree, treeAdd, addToChildren, nodeGet,
      findGet, SSSTreeNode.key])

/-- Claim C5, counterexample: inserting `[1] ↦ 20` into a trie already
holding `[1] ↦ 10` leaves the payload `10` in place but `SSSTree.__add__`
returns `True` — the same value as for any successful insert — so the
conflict is not reported to the caller, contradicting the claim. -/
theorem c5_counterexample :
    (treeAdd (buildTree [([1],10)] : SSSTree Nat Nat) [1] 20).2 = true ∧
      treeGet (treeAdd (buildTree [([1],10)] : SSSTree Nat Nat) [1] 20).1 [1]
        = .ok (some 10) := by
  constructor
  · rfl
  · simp [treeGet, goGet, buildTree, treeAdd, addToChildren, nodeGet, findGet,
      nodeAdd, commonLen, SSSTreeNode.key]

/-- Claim C5 (amended): inserting a key already bound to a different payload
leaves the stored payload unchanged (lookup still returns the old value);
the node-level `SSSTreeNode.__add__` returns `False` for a direct equal-key
conflict, but `SSSTree.__add__` discards that result and returns `True`, so
no conflict reaches the tree-level caller. -/
theorem c5_amended {S V : Type} [DecidableEq S] [DecidableEq V]
    (t : SSSTree S V) (k : List S) (v w : V)
    (hne : ∀ c ∈ t.children, c.key ≠ []) (hk : k ≠ [])
    (hold : treeGet t k = .ok (some w)) (hvw : w ≠ v) :
    treeGet (treeAdd t k v).1 k = .ok (some w) ∧
      (treeAdd t k v).2 = true ∧
      ∀ cs : List (SSSTreeNode S V),
        (nodeAdd (.mk k (some w) cs) k v).2 = some false := by
  refine ⟨?_, rfl, ?_⟩
  · have hf : findGet t.children k = some w := by
      have hgb := goGet_eq_findGet t.children k hne hk
      rw [treeGet, hgb] at hold
      simpa using hold
    have hnew := addToChildren_keysNE t.children k v hk hne
    have hb2 : treeGet (treeAdd t k v).1 k
        = .ok (findGet (addToChildren t.children k v) k) :=
      goGet_eq_findGet _ k hnew hk
    rw [hb2, findGet_addToChildren_aux t.children k v hk
      (fun c _ hhc k' hk' => nodeGet_nodeAdd c k v hk hhc k' hk') k hk,
      if_pos rfl, hf]
    rfl
  · intro cs
    simp [nodeAdd, commonLen_self, hvw]

theorem c5_amended_witness :
    treeGet (treeAdd (buildTree [([1],10)] : SSSTree Nat Nat) [1] 20).1 [1]
        = .ok (some 10) ∧
      (treeAdd (buildTree [([1],10)] : SSSTree Nat Nat) [1] 20).2 = true := by
  have h := c5_amended (buildTree [([1],10)] : SSSTree Nat Nat) [1] 20 10
    (by simp [buildTree, treeAdd, addToChildren, SSSTreeNode.key])
    (by simp)
    (by simp [treeGet, goGet, buildTree, treeAdd, addToChildren, nodeGet,
      findGet, SSSTreeNode.key])
    (by simp)
  exact ⟨h.1, h.2.1⟩

/-- Claim C9: calling `SSSTree.__getitem__` or `SSSTree.__call__` with an
empty key on a trie with at least one root child raises `IndexError`
(the code reads `key[0]` / `key[start]` unconditionally inside the child
loop), while on an empty trie the same calls return `None` and the empty
list respectively. -/
theorem c9_empty_key {S V : Type} [DecidableEq S] (t : SSSTree S V) :
    (t.children ≠ [] →
        treeGet t [] = .error "IndexError" ∧
          treeCall t [] 0 = .error "IndexError") ∧
      (t.children = [] →
        treeGet t [] = .ok none ∧ treeCall t [] 0 = .ok []) := by
  obtain ⟨cs⟩ := t
  cases cs with
  | nil => exact ⟨fun h => absurd rfl h, fun _ => ⟨rfl, rfl⟩⟩
  | cons c rest =>
    refine ⟨fun _ => ⟨?_, ?_⟩, fun h => by simp at h⟩
    · show goGet (c :: rest) [] = _
      cases hck : c.key.head? <;> simp [goGet, hck]
    · show goCall (c :: rest) [] 0 = _
      cases hck : c.key.head? <;> simp [goCall, hck]

theorem c9_empty_key_witness :
    treeGet (buildTree [([1],10)] : SSSTree Nat Nat) [] = .error "IndexError" ∧
      treeCall (buildTree [([1],10)] : SSSTree Nat Nat) [] 0 = .error "IndexError" :=
  (c9_empty_key (buildTree [([1],10)])).1
    (by simp [buildTree, treeAdd, addToChildren])

/-- Claim C1: the claim describes the intended trace semantics, but the code
crashes instead — on the trie holding exactly `[1] ↦ 10`, tracing `[1]`
reaches the aggregation loop of `SSSTree.__call__`, which reads the
undefined name `j` (`len(stack[j][0])`) and raises `NameError` instead of
returning `[(1, 10)]`. -/
theorem c1_trace_crash :
    treeCall (buildTree [([1], 10)] : SSSTree Nat Nat) [1] 0
      = .error "NameError" := by
  simp [treeCall, goCall, buildTree, treeAdd, addToChildren, nodeCall,
    goNodeCall, nodeAdd, commonLen, SSSTreeNode.key]

/-- Claim C7: the claim says lookup and trace never raise, but trace does —
on the trie holding `[2,3] ↦ 5`, tracing `[2,3,4]` matches the stored key
and then raises `NameError` from the undefined loop variable `j` in
`SSSTree.__call__`, instead of returning normally. -/
theorem c7_trace_crash :
    treeCall (buildTree [([2,3], 5)] : SSSTree Nat Nat) [2,3,4] 0
      = .error "NameError" := by
  simp [treeCall, goCall, buildTree, treeAdd, addToChildren, nodeCall,
    goNodeCall, nodeAdd, commonLen, SSSTreeNode.key]

/-- Modelled from the spec: a learned token — its creation rank and its
stored symbol sequence (§3 of the spec; the `ubpe.py` / `ubpe_classic.py`
orchestration modules holding the Encoder are not present under `src/`). -/
structure Token (S : Type) : Type where
  rank : Nat
  syms : List S

/-- Modelled from the spec: keep the better of two trace matches — higher
token rank wins, ties broken by greater matched length (§4.5 Encoder). -/
def pickBest {S : Type} (acc : Option (Nat × Token S)) (cand : Nat × Token S) :
    Option (Nat × Token S) :=
  match acc with
  | none => some cand
  | some a =>
    if cand.2.rank > a.2.rank then some cand
    else if cand.2.rank = a.2.rank ∧ cand.1 > a.1 then some cand
    else some a

/-- Modelled from the spec: the trace matches of the suffix `s` are the
vocabulary entries whose non-empty key is a prefix of `s` (§4.1 trace,
intended semantics); `bestMatch` selects among them per §4.5. -/
def bestMatch {S : Type} [DecidableEq S]
    (vocab : List (List S × Token S)) (s : List S) : Option (Nat × Token S) :=
  vocab.foldl
    (fun acc e =>
      if e.1 ≠ [] ∧ s.take e.1.length = e.1 then pickBest acc (e.1.length, e.2)
      else acc)
    none

/-- Modelled from the spec: greedy leftmost segmentation (§4.5) — at each
unconsumed position take the best trace match of the remaining suffix and
advance by its matched length, or emit the raw symbol as a rank-0 token and
advance by one.  `fuel` bounds the recursion; `encode` supplies the input
length, which suffices because every step consumes at least one symbol. -/
def encodeAux {S : Type} [DecidableEq S]
    (vocab : List (List S × Token S)) : Nat → List S → List (Token S)
  | 0, _ => []
  | _ + 1, [] => []
  | fuel + 1, a :: rest =>
    match bestMatch vocab (a :: rest) with
    | none => ⟨0, [a]⟩ :: encodeAux vocab fuel rest
    | some (len, t) => t :: encodeAux vocab fuel ((a :: rest).drop len)

/-- Modelled from the spec: the Encoder entry point (§6). -/
def encode {S : Type} [DecidableEq S]
    (vocab : List (List S × Token S)) (s : List S) : List (Token S) :=
  encodeAux vocab s.length s

/-- Modelled from the spec: `decode` is the concatenation of each token's
stored symbol sequence (§6). -/
def decode {S : Type} (ts : List (Token S)) : List S :=
  (ts.map Token.syms).flatten

theorem decode_cons {S : Type} (t : Token S) (ts : List (Token S)) :
    decode (t :: ts) = t.syms ++ decode ts := by
  simp [decode]

/-- Any match selected by `bestMatch` is a vocabulary entry whose non-empty
key prefixes the suffix, paired with that key's length. -/
theorem bestMatch_mem {S : Type} [DecidableEq S]
    (vocab : List (List S × Token S)) (s : List S) (len : Nat) (t : Token S)
    (h : bestMatch vocab s = some (len, t)) :
    ∃ k, (k, t) ∈ vocab ∧ k ≠ [] ∧ s.take k.length = k ∧ len = k.length := by
  have aux : ∀ (l : List (List S × Token S)) (acc : Option (Nat × Token S)),
      (∀ len' t', acc = some (len', t') →
        ∃ k, (k, t') ∈ vocab ∧ k ≠ [] ∧ s.take k.length = k ∧ len' = k.length) →
      (∀ e ∈ l, e ∈ vocab) →
      ∀ len' t',
        l.foldl (fun acc e =>
          if e.1 ≠ [] ∧ s.take e.1.length = e.1 then pickBest acc (e.1.length, e.2)
          else acc) acc = some (len', t') →
        ∃ k, (k, t') ∈ vocab ∧ k ≠ [] ∧ s.take k.length = k ∧ len' = k.length := by
    intro l
    induction l with
    | nil =>
      intro acc hacc _ len' t' hf
      exact hacc len' t' hf
    | cons e rest ih =>
      intro acc hacc hmem len' t' hf
      simp only [List.foldl_cons] at hf
      by_cases hcond : e.1 ≠ [] ∧ s.take e.1.length = e.1
      · rw [if_pos hcond] at hf
        refine ih _ ?_ (fun d hd => hmem d (by simp [hd])) len' t' hf
        intro len'' t'' hacc'
        cases acc with
        | none =>
          simp only [pickBest, Option.some.injEq] at hacc'
          obtain ⟨h1, h2⟩ := Prod.mk.injEq .. ▸ hacc'
          exact ⟨e.1, by rw [← h2]; exact (by simpa using hmem e (by simp)),
            hcond.1, hcond.2, by rw [← h1]⟩
        | some a =>
          simp only [pickBest] at hacc'
          split at hacc'
          · simp only [Option.some.injEq] at hacc'
            obtain ⟨h1, h2⟩ := Prod.mk.injEq .. ▸ hacc'
            exact ⟨e.1, by rw [← h2]; exact (by simpa using hmem e (by simp)),
              hcond.1, hcond.2, by rw [← h1]⟩
          · split at hacc'
            · simp only [Option.some.injEq] at hacc'
              obtain ⟨h1, h2⟩ := Prod.mk.injEq .. ▸ hacc'
              exact ⟨e.1, by rw [← h2]; exact (by simpa using hmem e (by simp)),
                hcond.1, hcond.2, by rw [← h1]⟩
            · simp only [Option.some.injEq] at hacc'
              exact hacc len'' t'' (by rw [hacc'])
      · rw [if_neg hcond] at hf
        exact ih _ hacc (fun d hd => hmem d (by simp [hd])) len' t' hf
  exact aux vocab none (fun len' t' h' => by simp at h') (fun d hd => hd) len t h

/-- Round trip through the fuelled encoder. -/
theorem decode_encodeAux {S : Type} [DecidableEq S]
    (vocab : List (List S × Token S)) (hv : ∀ e ∈ vocab, e.2.syms = e.1) :
    ∀ (fuel : Nat) (s : List S), s.length ≤ fuel →
      decode (encodeAux vocab fuel s) = s := by
  intro fuel
  induction fuel with
  | zero =>
    intro s hs
    have : s = [] := List.eq_nil_of_length_eq_zero (Nat.le_zero.mp hs)
    rw [this]
    rfl
  | succ n ih =>
    intro s hs
    cases s with
    | nil => rfl
    | cons a rest =>
      cases hbm : bestMatch vocab (a :: rest) with
      | none =>
        simp only [encodeAux, hbm]
        rw [decode_cons, ih rest (by simpa using hs)]
        rfl
      | some lt =>
        obtain ⟨len, t⟩ := lt
        obtain ⟨k, hkmem, hkne, hkpre, hklen⟩ :=
          bestMatch_mem vocab (a :: rest) len t hbm
        have hsy : t.syms = k := hv (k, t) hkmem
        have hlen1 : 1 ≤ len := by
          rw [hklen]
          exact List.length_pos.mpr hkne
        have hlenle : len ≤ (a :: rest).length := by
          have := congrArg List.length hkpre
          rw [List.length_take] at this
          omega
        simp only [encodeAux, hbm]
        rw [decode_cons, hsy,
          ih ((a :: rest).drop len) (by rw [List.length_drop]; omega)]
        conv_rhs => rw [← List.take_append_drop len (a :: rest)]
        congr 1
        rw [hklen]
        exact hkpre.symm

/-- Claim C2: decoding the encoding of any input sequence returns it exactly
— `decode(encode(x)) = x` — whenever every vocabulary entry stores the token
under its own symbol sequence as key (the trainer inserts each token keyed
by its full symbol sequence); in particular this holds for sequences
composed only of training-time symbols. -/
theorem c2_roundTrip {S : Type} [DecidableEq S]
    (vocab : List (List S × Token S)) (hv : ∀ e ∈ vocab, e.2.syms = e.1)
    (x : List S) :
    decode (encode vocab x) = x :=
  decode_encodeAux vocab hv x.length x le_rfl

theorem c2_roundTrip_witness :
    decode (encode [([1,2], Token.mk 1 [1,2])] [1,2,3]) = [1,2,3] :=
  c2_roundTrip [([1,2], Token.mk 1 [1,2])] (by simp) [1,2,3]

/-- The slice of `Logger` state that steers `log_progress` control flow:
its `quiet` flag.  Scope/prefix/file only affect the rendered text, which is
abstracted by a `render` parameter below (writes to the sink are assumed to
succeed; the message length is `render`'s value). -/
structure LoggerCfg : Type where
  quiet : Bool

/-- State of a `Progress` meter (`logger.py`): Python `None` fields are
`Option`s, `time.time()` values are rationals supplied by the caller. -/
structure Progress : Type where
  logger : Option LoggerCfg
  unitName : String
  precision : Nat
  isRunning : Bool
  isActive : Bool
  total : Option Int
  initial : Option Int
  current : Option Int
  initialTime : Option ℚ
  currentTime : Option ℚ
  rate : Option ℚ
  oldLength : Option Nat

/-- `Progress.__init__`: everything inactive and unset. -/
def progressInit (logger : Option LoggerCfg) (unitName : String)
    (precision : Nat) : Progress :=
  ⟨logger, unitName, precision, false, false, none, none, none, none, none,
    none, none⟩

/-- `Progress.__call__(total=…, initial=…)` at wall time `now`: guarded by
the is-running check, then initializes counters and times. -/
def progressCall (p : Progress) (total initial : Int) (now : ℚ) :
    Except String Progress :=
  if p.isRunning then .error "Exception: Progress is already running"
  else .ok { p with
    total := some total, initial := some initial, current := some initial,
    initialTime := some now, currentTime := some now, rate := some 0,
    oldLength := none, isActive := true }

/-- `Progress.__iter__`: guarded by the running/active checks, then marks
the meter running. -/
def progressIterStart (p : Progress) : Except String Progress :=
  if p.isRunning then .error "Exception: Progress is already running"
  else if ¬ p.isActive then .error "Exception: Progress is not active"
  else .ok { p with isRunning := true }

/-- `Logger.log_progress`: returns `None` when quiet; otherwise computes
`elapsed` from the progress times (`TypeError` on unset fields, as `None`
arithmetic raises), guards the `left` division by `rate > 0` (reading
`total`/`current` only then), renders the message (via the abstract
`render`, applied to the state and elapsed time) and returns its length. -/
def logProgress (lg : LoggerCfg) (p : Progress)
    (render : Progress → ℚ → Nat) : Except String (Option Nat) :=
  if lg.quiet then .ok none
  else
    match p.currentTime, p.initialTime, p.rate with
    | some ct, some it, some r =>
      if 0 < r then
        match p.total, p.current with
        | some _, some _ => .ok (some (render p (ct - it)))
        | _, _ => .error "TypeError"
      else .ok (some (render p (ct - it)))
    | _, _, _ => .error "TypeError"

/-- `Progress.run`: guarded by the running/active checks; then reports once
through the logger (recording the returned length) or prints (formatting
`_rate` raises `TypeError` when it is unset). -/
def progressRun (p : Progress) (render : Progress → ℚ → Nat) :
    Except String Progress :=
  if p.isRunning then .error "Exception: Progress is already running"
  else if ¬ p.isActive then .error "Exception: Progress is not active"
  else
    let p1 := { p with isRunning := true }
    match p1.logger with
    | some lg => do
        let len ← logProgress lg p1 render
        .ok { p1 with oldLength := len }
    | none =>
      match p1.rate with
      | some _ => .ok p1
      | none => .error "TypeError"

/-- `Progress.update(inc)` at wall time `now`: guarded by the not-running
check; increments `_current`, stamps `_current_time`, recomputes `_rate`
(`ZeroDivisionError` when elapsed time is zero, `TypeError` on unset
fields), then reports through the logger or the print path (whose `left`
computation reads `_total` only when the rate is positive). -/
def progressUpdate (p : Progress) (inc : Int) (now : ℚ)
    (render : Progress → ℚ → Nat) : Except String Progress :=
  if ¬ p.isRunning then .error "Exception: Progress is not running"
  else
    match p.current with
    | none => .error "TypeError"
    | some cur =>
      let cur1 := cur + inc
      match p.initialTime with
      | none => .error "TypeError"
      | some it =>
        let elapsed := now - it
        match p.initial with
        | none => .error "TypeError"
        | some ini =>
          if elapsed = 0 then .error "ZeroDivisionError"
          else
            let r := ((cur1 - ini : Int) : ℚ) / elapsed
            let p1 := { p with current := some cur1, currentTime := some now, rate := some r }
            match p1.logger with
            | some lg => do
                let len ← logProgress lg p1 render
                .ok { p1 with oldLength := len }
            | none =>
              if 0 < r then
                match p1.total with
                | none => .error "TypeError"
                | some _ => .ok p1
              else .ok p1

/-- `Progress._reset` (reached from `stop`, which clears the running flag
first, so the is-running guard cannot fire there): clears all counters and
deactivates the meter. -/
def progressReset (p : Progress) : Progress :=
  { p with
    isActive := false, total := none, initial := none, current := none,
    initialTime := none, currentTime := none, rate := none, oldLength := none }

/-- `Progress.__next__` at wall time `now`: compares `_current > _total`
(`TypeError` when unset — there is no is-running guard in the source), stops
(`StopIteration`, encoded as `(none, reset state)`) when the counter
strictly exceeds the total, otherwise yields the current counter, updates
time and rate (`ZeroDivisionError` on zero elapsed), reports, and increments
the counter afterwards. -/
def progressNext (p : Progress) (now : ℚ) (render : Progress → ℚ → Nat) :
    Except String (Option Int × Progress) :=
  match p.current, p.total with
  | some cur, some tot =>
    if cur > tot then
      -- `self.stop()`: `_is_running = False` then `_reset()`
      .ok (none, progressReset { p with isRunning := false })
    else
      match p.initialTime, p.initial with
      | some it, some ini =>
        let elapsed := now - it
        if elapsed = 0 then .error "ZeroDivisionError"
        else
          let r := ((cur - ini : Int) : ℚ) / elapsed
          let p1 := { p with currentTime := some now, rate := some r }
          match p1.logger with
          | some lg => do
              let len ← logProgress lg p1 render
              .ok (some cur, { p1 with oldLength := len, current := some (cur + 1) })
          | none =>
            -- the print path: `_total` is present here, so `left` cannot
            -- raise; item is yielded and `_current` incremented last
            .ok (some cur, { p1 with current := some (cur + 1) })
      | _, _ => .error "TypeError"
  | _, _ => .error "TypeError"

/-- Driver for Python's for-loop protocol over a `Progress` iterator:
repeatedly call `__next__` with successive wall times, collecting yielded
items until `StopIteration` (`.ok (some items)`) or an exception; `fuel`
bounds the steps and the result is `.ok none` exactly when fuel runs out
before the iterator stops. -/
def progressIterAux (times : Nat → ℚ) (render : Progress → ℚ → Nat) :
    Nat → Nat → Progress → Except String (Option (List Int))
  | 0, _, _ => .ok none
  | fuel + 1, k, p =>
    match progressNext p (times k) render with
    | .error e => .error e
    | .ok (none, _) => .ok (some [])
    | .ok (some item, p1) =>
      match progressIterAux times render fuel (k + 1) p1 with
      | .error e => .error e
      | .ok none => .ok none
      | .ok (some rest) => .ok (some (item :: rest))

/-- The integers `i, i+1, …, n`. -/
def intRange (i n : Int) : List Int :=
  (List.range (n + 1 - i).toNat).map (fun (j : Nat) => i + (j : Int))

theorem intRange_cons (i n : Int) (h : i ≤ n) :
    intRange i n = i :: intRange (i + 1) n := by
  unfold intRange
  have h1 : (n + 1 - i).toNat = (n + 1 - (i + 1)).toNat + 1 := by omega
  rw [h1, List.range_succ_eq_map, List.map_cons, List.map_map]
  refine congrArg₂ List.cons (by simp) ?_
  refine List.map_congr_left (fun j _ => ?_)
  simp only [Function.comp_apply]
  push_cast
  ring

theorem intRange_stop (i n : Int) (h : n < i) : intRange i n = [] := by
  unfold intRange
  have : (n + 1 - i).toNat = 0 := by omega
  rw [this]
  rfl

/-- One non-final `__next__` step from a state with counters set and start
time `0`: yields the current counter and advances it, stamping the new time
and rate; only the recorded message length depends on the logger branch. -/
theorem progressNext_step (lg : Option LoggerCfg) (u : String) (prec : Nat)
    (runn act : Bool) (n i0 cur : Int) (ct r : Option ℚ) (ol : Option Nat)
    (now : ℚ) (render : Progress → ℚ → Nat)
    (hle : cur ≤ n) (hnz : now ≠ 0) :
    ∃ ol', progressNext
        ⟨lg, u, prec, runn, act, some n, some i0, some cur, some 0, ct, r, ol⟩
        now render
      = .ok (some cur,
          ⟨lg, u, prec, runn, act, some n, some i0, some (cur + 1), some 0,
            some now, some (((cur - i0 : Int) : ℚ) / (now - 0)), ol'⟩) := by
  simp only [progressNext]
  rw [if_neg (by omega)]
  have hnz0 : ¬ (now - 0 = 0) := by simpa using hnz
  rw [if_neg hnz0]
  cases lg with
  | none => exact ⟨ol, rfl⟩
  | some lgc =>
    obtain ⟨q⟩ := lgc
    cases q with
    | true => exact ⟨none, rfl⟩
    | false =>
      simp only [logProgress]
      by_cases hr : 0 < ((cur - i0 : Int) : ℚ) / (now - 0)
      · rw [if_pos hr]
        exact ⟨_, rfl⟩
      · rw [if_neg hr]
        exact ⟨_, rfl⟩

/-- Running the for-loop driver from a running state with counters set and
strictly positive wall times collects exactly the integers from the current
counter up to the total, given enough fuel. -/
theorem progressIterAux_run (lg : Option LoggerCfg) (u : String) (prec : Nat)
    (render : Progress → ℚ → Nat) (times : Nat → ℚ)
    (htimes : ∀ k, 0 < times k) (n i0 : Int) :
    ∀ (fuel k : Nat) (cur : Int) (ct r : Option ℚ) (ol : Option Nat)
      (runn act : Bool),
      cur ≤ n + 1 → (n + 1 - cur).toNat < fuel →
      progressIterAux times render fuel k
        ⟨lg, u, prec, runn, act, some n, some i0, some cur, some 0, ct, r, ol⟩
        = .ok (some (intRange cur n)) := by
  intro fuel
  induction fuel with
  | zero =>
    intro k cur ct r ol runn act hle hf
    omega
  | succ f ih =>
    intro k cur ct r ol runn act hle hf
    by_cases hgt : n < cur
    · simp only [progressIterAux, progressNext, if_pos hgt]
      rw [intRange_stop cur n hgt]
    · push_neg at hgt
      obtain ⟨ol', hstep⟩ := progressNext_step lg u prec runn act n i0 cur
        ct r ol (times k) render hgt (ne_of_gt (htimes k))
      simp only [progressIterAux, hstep]
      rw [ih (k + 1) (cur + 1) (some (times k))
        (some (((cur - i0 : Int) : ℚ) / (times k - 0))) ol' runn act
        (by omega) (by omega)]
      rw [intRange_cons cur n hgt]

/-- Claim C10: iterating a `Progress` initialized with `total = n` and
`initial = i` (`i ≤ n`) yields the values `i, i+1, …, n` inclusive — that is
`n - i + 1` iterations, one more than `total - initial` — because
`__next__` stops only when the internal counter strictly exceeds the total.
Wall times are assumed strictly positive (a repeated clock reading would
instead raise `ZeroDivisionError` in the rate computation). -/
theorem c10_iteration (lg : Option LoggerCfg) (u : String) (prec : Nat)
    (render : Progress → ℚ → Nat) (times : Nat → ℚ) (n i : Int) (fuel : Nat)
    (hin : i ≤ n) (htimes : ∀ k, 0 < times k)
    (hfuel : (n + 1 - i).toNat < fuel) :
    (do
      let p1 ← progressCall (progressInit lg u prec) n i 0
      let p2 ← progressIterStart p1
      progressIterAux times render fuel 0 p2)
      = .ok (some (intRange i n)) ∧
      (intRange i n).length = (n - i + 1).toNat := by
  constructor
  · have hcall : progressCall (progressInit lg u prec) n i 0
        = .ok ⟨lg, u, prec, false, true, some n, some i, some i, some 0,
            some 0, some 0, none⟩ := rfl
    have hstart : progressIterStart
        ⟨lg, u, prec, false, true, some n, some i, some i, some 0, some 0,
          some 0, none⟩
        = .ok ⟨lg, u, prec, true, true, some n, some i, some i, some 0,
            some 0, some 0, none⟩ := rfl
    simp only [hcall, hstart, bind, Except.bind]
    exact progressIterAux_run lg u prec render times htimes n i fuel 0 i
      (some 0) (some 0) none true true (by omega) hfuel
  · simp [intRange]
    omega

theorem c10_iteration_witness :
    (do
      let p1 ← progressCall (progressInit none "item" 3) 5 2 0
      let p2 ← progressIterStart p1
      progressIterAux (fun _ => 1) (fun _ _ => 0) 10 0 p2)
      = .ok (some (intRange 2 5)) ∧
      (intRange 2 5).length = (5 - 2 + 1 : Int).toNat :=
  c10_iteration none "item" 3 (fun _ _ => 0) (fun _ => 1) 5 2 10
    (by norm_num) (fun k => by norm_num) (by norm_num)

/-- Claim C8, counterexample: calling `Progress.update` on a freshly
constructed (not running) meter does not return normally — it raises
`Exception("Progress is not running")`, so a reporting call can propagate a
failure to the algorithm driving it. -/
theorem c8_counterexample :
    progressUpdate (progressInit none "item" 3) 1 1 (fun _ _ => 0)
      = .error "Exception: Progress is not running" := rfl

/-- Claim C8 (amended): progress operations are not unconditionally
non-raising — `Progress.update` raises when the meter is not running and
`Progress.run` raises when it is already running; however, in a running
state with all counters and times set and a non-zero elapsed time,
`update` returns normally under any logger configuration (and with it
`Logger.log_progress`, whose reads are then all set). -/
theorem c8_amended :
    (∀ (p : Progress) (inc : Int) (now : ℚ) (render : Progress → ℚ → Nat),
        p.isRunning = false →
        progressUpdate p inc now render
          = .error "Exception: Progress is not running") ∧
      (∀ (p : Progress) (render : Progress → ℚ → Nat),
        p.isRunning = true →
        progressRun p render
          = .error "Exception: Progress is already running") ∧
      (∀ (lg : Option LoggerCfg) (u : String) (prec : Nat) (act : Bool)
          (n i cur : Int) (t0 now : ℚ) (ct r : Option ℚ) (ol : Option Nat)
          (inc : Int) (render : Progress → ℚ → Nat),
        now ≠ t0 →
        ∃ p', progressUpdate
            ⟨lg, u, prec, true, act, some n, some i, some cur, some t0, ct,
              r, ol⟩ inc now render = .ok p') := by
  refine ⟨?_, ?_, ?_⟩
  · intro p inc now render h
    simp [progressUpdate, h]
  · intro p render h
    simp [progressRun, h]
  · intro lg u prec act n i cur t0 now ct r ol inc render hne
    simp only [progressUpdate]
    rw [if_neg (by simp)]
    have hnz : ¬ (now - t0 = 0) := by
      intro h
      exact hne (by linarith)
    rw [if_neg hnz]
    cases lg with
    | none =>
      by_cases hr : 0 < ((cur + inc - i : Int) : ℚ) / (now - t0)
      · rw [if_pos hr]
        exact ⟨_, rfl⟩
      · rw [if_neg hr]
        exact ⟨_, rfl⟩
    | some lgc =>
      obtain ⟨q⟩ := lgc
      cases q with
      | true => exact ⟨_, rfl⟩
      | false =>
        simp only [logProgress]
        by_cases hr : 0 < ((cur + inc - i : Int) : ℚ) / (now - t0)
        · rw [if_pos hr]
          exact ⟨_, rfl⟩
        · rw [if_neg hr]
          exact ⟨_, rfl⟩

theorem c8_amended_witness :
    ∃ p', progressUpdate
        ⟨none, "item", 3, true, true, some 5, some 0, some 0, some 0, some 0,
          some 0, none⟩ 1 1 (fun _ _ => 0) = .ok p' :=
  c8_amended.2.2 none "item" 3 true 5 0 0 0 1 (some 0) (some 0) none 1
    (fun _ _ => 0) (by norm_num)
